import Mathlib

/-!
Verification of the URL fetch-and-scan utility (`src/URL/URL_Dangerouswords.py`).

Shallow embedding conventions:
* Decoded text (Python `str`) is a `List Nat` of Unicode code points; raw
  bodies (Python `bytes`) are a `List Nat` of byte values.
* Filesystem paths, filenames and timestamps are `List Char`; short fixed
  strings (content types, URLs, error messages) are Lean `String`s.
* `datetime.now()`, the network and the filesystem are impure; they enter the
  embedding as explicit parameters (a clock value, a `net` function from the
  requested URL to a response or error, an `isDir` predicate on paths).
  Writing a file is modelled by returning the resolved path and the content
  that would be written.
* Python exceptions are explicit error values (`PyExc`) in an `Except`.
-/

namespace URLDW

/-- Code points of a Lean string literal, used to write concrete texts. -/
def strCodes (s : String) : List Nat := s.data.map Char.toNat

/-- Membership in Python's `\w` class (line 15, `WORD_PATTERN = r'\b\w+\b'`),
restricted to the ASCII range: digits, Latin letters and underscore.
(Python's `\w` additionally matches non-ASCII word characters; theorems about
the scanner therefore carry an ASCII-input hypothesis.) -/
def isWordChar (c : Nat) : Bool :=
  (48 ≤ c && c ≤ 57) || (65 ≤ c && c ≤ 90) || (97 ≤ c && c ≤ 122) || c == 95

/-- Python's `str.lower` on a single code point, ASCII range. -/
def toLowerCp (c : Nat) : Nat := if 65 ≤ c && c ≤ 90 then c + 32 else c

/-- Python's `str.lower` on a text. -/
def lowerText (t : List Nat) : List Nat := t.map toLowerCp

/-- Accumulator worker for `findallWords`: `acc` holds the reversed current
run of word characters. -/
def tokensAux : List Nat → List Nat → List (List Nat)
  | [], acc => if acc.isEmpty then [] else [acc.reverse]
  | c :: cs, acc =>
    if isWordChar c then tokensAux cs (c :: acc)
    else if acc.isEmpty then tokensAux cs acc
    else acc.reverse :: tokensAux cs []

/-- Model of `WORD_PATTERN.findall(text)` (line 15): the maximal runs of word
characters of `text`, in order. `\b\w+\b` matches exactly these runs, because
`\w+` is greedy and `\b` holds at the two ends of a maximal run. -/
def findallWords (t : List Nat) : List (List Nat) := tokensAux t []

/-- The constant `DANGEROUS_WORDS` (lines 17-20). -/
def DANGEROUS_WORDS : List (List Nat) :=
  [strCodes "bomb", strCodes "kill", strCodes "murder", strCodes "terror",
   strCodes "terrorist", strCodes "terrorists", strCodes "terrorism"]

/-- The scanner `count_words` (lines 72-74):
`{word.lower() for word in WORD_PATTERN.findall(text)} & DANGEROUS_WORDS`,
a set represented as a deduplicated list. (The `lru_cache` decorator only
memoizes this pure function and does not change its value.) -/
def count_words (text : List Nat) : List (List Nat) :=
  (((findallWords text).map lowerText).filter (· ∈ DANGEROUS_WORDS)).dedup

/-- The claim's reading of "occurs in the text as a whole word
(case-insensitive), in lowercase form": some non-empty run `m` of word
characters occurs in `t`, delimited on both sides by the text boundary or a
non-word character, and lowercases to `w`. -/
def OccursAsWholeWord (w t : List Nat) : Prop :=
  ∃ a m b, t = a ++ m ++ b ∧ m ≠ [] ∧ (∀ c ∈ m, isWordChar c = true) ∧
    lowerText m = w ∧
    (∀ c, a.getLast? = some c → isWordChar c = false) ∧
    (∀ c, b.head? = some c → isWordChar c = false)

/-- Scan of `HTML_CLEANER = re.compile('<[^<]+?>')` (line 16) after an
opening `<` and one already-checked `[^<]` character: look for the closing
`>`; a second `<` before it makes the match attempt fail. Returns the text
after the matched span. -/
def tagEnd : List Nat → Option (List Nat)
  | [] => none
  | c :: cs => if c = 62 then some cs else if c = 60 then none else tagEnd cs

/-- Attempt to match `[^<]+?>` right after an opening `<` (non-greedy: the
span ends at the first `>` reachable through non-`<` characters, and at least
one character stands between `<` and `>`). -/
def tagMatch : List Nat → Option (List Nat)
  | [] => none
  | c :: cs => if c = 60 then none else tagEnd cs

/-- Fuel-indexed worker for `HTML_CLEANER.sub('', text)`; the fuel only makes
the recursion structural and is initialized to the text length, which bounds
the number of steps (each step consumes at least one character). -/
def htmlCleanerFuel : Nat → List Nat → List Nat
  | 0, t => t
  | _ + 1, [] => []
  | n + 1, c :: cs =>
    if c = 60 then
      match tagMatch cs with
      | some rest => htmlCleanerFuel n rest
      | none => c :: htmlCleanerFuel n cs
    else c :: htmlCleanerFuel n cs

/-- Model of `HTML_CLEANER.sub('', text)` (lines 16 and 120): delete every
non-overlapping match of `<[^<]+?>`, scanning left to right. -/
def htmlCleanerSub (t : List Nat) : List Nat := htmlCleanerFuel t.length t

/-- UTF-8 continuation byte. -/
def isCont (b : Nat) : Bool := 128 ≤ b && b ≤ 191

/-- Strict UTF-8 decoding of a byte list into code points, as performed by
Python's `bytes.decode('utf-8')`: rejects stray continuation bytes, overlong
encodings, surrogates and code points above U+10FFFF. -/
def utf8Decode : List Nat → Option (List Nat)
  | [] => some []
  | b :: rest =>
    if b ≤ 0x7F then (utf8Decode rest).map (b :: ·)
    else if 0xC2 ≤ b && b ≤ 0xDF then
      match rest with
      | b1 :: rest2 =>
        if isCont b1 then
          (utf8Decode rest2).map (((b - 0xC0) * 64 + (b1 - 0x80)) :: ·)
        else none
      | [] => none
    else if 0xE0 ≤ b && b ≤ 0xEF then
      match rest with
      | b1 :: b2 :: rest2 =>
        if (if b = 0xE0 then 0xA0 ≤ b1 && b1 ≤ 0xBF
            else if b = 0xED then 0x80 ≤ b1 && b1 ≤ 0x9F
            else isCont b1) && isCont b2 then
          (utf8Decode rest2).map
            (((b - 0xE0) * 4096 + (b1 - 0x80) * 64 + (b2 - 0x80)) :: ·)
        else none
      | _ => none
    else if 0xF0 ≤ b && b ≤ 0xF4 then
      match rest with
      | b1 :: b2 :: b3 :: rest2 =>
        if (if b = 0xF0 then 0x90 ≤ b1 && b1 ≤ 0xBF
            else if b = 0xF4 then 0x80 ≤ b1 && b1 ≤ 0x8F
            else isCont b1) && isCont b2 && isCont b3 then
          (utf8Decode rest2).map
            (((b - 0xF0) * 262144 + (b1 - 0x80) * 4096 + (b2 - 0x80) * 64 + (b3 - 0x80)) :: ·)
        else none
      | _ => none
    else none

/-- The Python exceptions that the modelled functions can surface:
`URLFetcherError` (lines 25-26) with its message, and an uncaught
`UnicodeDecodeError` propagating out of a `.decode('utf-8')` call. -/
inductive PyExc where
  | urlFetcherError (msg : String)
  | unicodeDecodeError
deriving DecidableEq, Repr

/-- Is the exception a `URLFetcherError`? -/
def PyExc.isFetcherError : PyExc → Bool
  | .urlFetcherError _ => true
  | .unicodeDecodeError => false

/-- An HTTP response: the `Content-Type` header (as returned by
`response.headers.get_content_type()`) and the raw body bytes. -/
structure Response where
  contentType : String
  body : List Nat
deriving DecidableEq, Repr

/-- Scheme defaulting on line 78 of `check_url`:
`f"{'http://' if not url.startswith(('http://', 'https://')) else ''}{url}"`. -/
def defaultScheme (url : String) : String :=
  if "http://".data.isPrefixOf url.data || "https://".data.isPrefixOf url.data
  then url else "http://" ++ url

/-- The URL that `check_url` passes to `urlopen` (lines 78-81): the input URL
with the scheme defaulted. -/
def check_url_request_url (url : String) : String := defaultScheme url

/-- The URL that `load_url` passes to `urlopen` (line 66): its argument,
unchanged — `load_url` performs no scheme defaulting. -/
def load_url_request_url (url : String) : String := url

/-- The URL `main` passes to `load_url` (line 116): the raw prompted URL
(whitespace-stripped), not the scheme-defaulted URL local to `check_url`. -/
def main_load_url_arg (url : String) : String := url

/-- The fetcher `check_url` (lines 76-87). Here `net` maps the requested URL to the response
or to a network-error message; the bare `except Exception` turns any failure
(network error or `UnicodeDecodeError` from `.decode('utf-8')`) into a
`URLFetcherError` (the exact interpolated message of a wrapped
`UnicodeDecodeError` is abbreviated here). Returns `(True, 'image/jpeg')`
when the content type equals `image/jpeg` (the body is not read then),
otherwise `(True, 'text/html')` when the decoded body is non-empty,
otherwise `(False, None)`. -/
def check_url (net : String → Except String Response) (url : String) :
    Except PyExc (Bool × Option String) :=
  match net (check_url_request_url url) with
  | .error e => .error (.urlFetcherError ("URL validation failed: " ++ e))
  | .ok r =>
    if r.contentType = "image/jpeg" then .ok (true, some "image/jpeg")
    else
      match utf8Decode r.body with
      | none => .error (.urlFetcherError "URL validation failed: UnicodeDecodeError")
      | some s => if s.isEmpty then .ok (false, none) else .ok (true, some "text/html")

/-- The downloader `load_url` (lines 64-70). Only `URLError`/`HTTPError` are caught and
wrapped into `URLFetcherError`; a `UnicodeDecodeError` raised by
`content.decode('utf-8')` when `binary=False` is NOT caught there and
propagates as-is (modelled by `PyExc.unicodeDecodeError`). Returns the raw
bytes (`Sum.inl`) in binary mode and the decoded text (`Sum.inr`)
otherwise. -/
def load_url (net : String → Except String Response) (url : String)
    (binary : Bool) : Except PyExc (Sum (List Nat) (List Nat)) :=
  match net (load_url_request_url url) with
  | .error e => .error (.urlFetcherError ("Failed to load URL: " ++ e))
  | .ok r =>
    if binary then .ok (.inl r.body)
    else
      match utf8Decode r.body with
      | some s => .ok (.inr s)
      | none => .error .unicodeDecodeError

/-- A character stripped by `path.strip('"\'')`. -/
def isQuote (c : Char) : Bool := c = '"' || c = '\''

/-- Python's `str.strip('"\'')`: drop quote characters from both ends. -/
def stripQuotes (s : List Char) : List Char :=
  ((s.dropWhile isQuote).reverse.dropWhile isQuote).reverse

/-- The final component of a path (the part after the last `/`). -/
def lastComponent (p : List Char) : List Char :=
  (p.reverse.takeWhile (· ≠ '/')).reverse

/-- Model of `pathlib.Path(p).suffix`: the extension of the final component, i.e.
`name[i:]` for `i = name.rfind('.')` when `0 < i < len(name) - 1`, else
empty. -/
def path_suffix (p : List Char) : List Char :=
  let name := lastComponent p
  let ext := name.reverse.takeWhile (· ≠ '.')
  if ext.length < name.length && 0 < ext.length && ext.length + 1 < name.length
  then '.' :: ext.reverse else []

/-- Model of `Path.with_suffix(ext)` as used by the writers: it is only invoked on
paths whose suffix is empty, where it appends `ext`. -/
def path_with_suffix (p ext : List Char) : List Char := p ++ ext

/-- The constant `VALID_BINARY_EXT` (line 21). -/
def VALID_BINARY_EXT : List (List Char) := [".jpg".data, ".png".data, ".bin".data]

/-- The constant `VALID_TEXT_EXT` (line 22). -/
def VALID_TEXT_EXT : List (List Char) := [".txt".data, ".html".data]

/-- One call to the `lru_cache`-decorated zero-argument `generate_timestamp`
(lines 28-30): given the cache state and the current clock rendering
(`datetime.now().strftime("%Y%m%d_%H%M%S")`), return the result and the new
cache state. The first call stores the clock value; every later call returns
the stored value without consulting the clock. -/
def generate_timestamp_call (cache : Option (List Char)) (now : List Char) :
    List Char × Option (List Char) :=
  match cache with
  | some t => (t, some t)
  | none => (now, some now)

/-- Results of successive `generate_timestamp()` calls, threading the cache
state through; `clocks` lists the clock value at each call. -/
def generate_timestamp_runAux :
    Option (List Char) → List (List Char) → List (List Char)
  | _, [] => []
  | cache, now :: rest =>
    (generate_timestamp_call cache now).1 ::
      generate_timestamp_runAux (generate_timestamp_call cache now).2 rest

/-- Results of the `generate_timestamp()` calls of one process run (cache
initially empty). -/
def generate_timestamp_run (clocks : List (List Char)) : List (List Char) :=
  generate_timestamp_runAux none clocks

/-- The filename synthesis `generate_filename` (lines 32-34), with the (cached) timestamp passed
explicitly. -/
def generate_filename (content_type : String) (ts : List Char) : List Char :=
  if content_type = "image/jpeg" then "image_".data ++ ts ++ ".jpg".data
  else "content_".data ++ ts ++ ".txt".data

/-- The outcome of a successful `save_content`: the resolved path, the write
mode, and the written content (`Sum.inl` bytes / `Sum.inr` text). -/
structure SavedFile where
  path : List Char
  binary : Bool
  content : Sum (List Nat) (List Nat)
deriving DecidableEq, Repr

/-- The writer `save_content` (lines 36-62). Here `isDir` stands for `Path.is_dir()` and `ts`
for the cached timestamp. Strips quotes, synthesizes a filename when the path
is a directory, appends a default suffix when there is none, validates the
final suffix against the allow-list of the mode (raising `URLFetcherError`
otherwise — the exact interpolated message is abbreviated here), and writes.
`OSError` from the actual filesystem write is environment behaviour outside
this model. -/
def save_content (isDir : List Char → Bool) (ts : List Char)
    (content : Sum (List Nat) (List Nat)) (path : List Char)
    (is_binary : Bool) : Except PyExc SavedFile :=
  let p0 := stripQuotes path
  let p1 := if isDir p0 then
      p0 ++ '/' :: generate_filename (if is_binary then "image/jpeg" else "text/html") ts
    else p0
  let p2 := if path_suffix p1 = [] then
      path_with_suffix p1 (if is_binary then ".bin".data else ".txt".data)
    else p1
  if is_binary ∧ path_suffix p2 ∉ VALID_BINARY_EXT then
    .error (.urlFetcherError "Invalid binary extension")
  else if ¬is_binary ∧ path_suffix p2 ∉ VALID_TEXT_EXT then
    .error (.urlFetcherError "Invalid text extension")
  else .ok ⟨p2, is_binary, content⟩

/-- Lexicographic-by-code-point comparison of texts, as Python compares
strings: `lexLeB a b = true` iff `a <= b` in Python. -/
def lexLeB : List Nat → List Nat → Bool
  | [], _ => true
  | _ :: _, [] => false
  | a :: as, b :: bs => if a < b then true else if b < a then false else lexLeB as bs

/-- Python's `sorted` on a collection of texts: the unique ascending
reordering (realized by insertion sort). -/
def sortWords (ws : List (List Nat)) : List (List Nat) :=
  List.insertionSort (fun a b => lexLeB a b = true) ws

/-- Python's `'\n'.join(...)`. -/
def joinWithNewlines (ws : List (List Nat)) : List Nat :=
  List.intercalate [10] ws

/-- The writer `save_dangerous_words` (lines 92-106). Strips quotes; on a directory
synthesizes `dangerous_words_{ts}.txt`, else appends `.txt` when the path has
no suffix (note: no extension validation at all); writes the sorted matched
words joined by newlines, or the literal fallback text when the set is empty.
Returns the resolved path and written content. -/
def save_dangerous_words (isDir : List Char → Bool) (ts : List Char)
    (dangerous_words : List (List Nat)) (path : List Char) :
    List Char × List Nat :=
  let p0 := stripQuotes path
  let p1 := if isDir p0 then
      p0 ++ '/' :: ("dangerous_words_".data ++ ts ++ ".txt".data)
    else if path_suffix p0 = [] then path_with_suffix p0 ".txt".data
    else p0
  (p1, if dangerous_words = [] then strCodes "No dangerous words found"
       else joinWithNewlines (sortWords dangerous_words))

/-- The HTML branch of `main` (lines 119-124): strip the prompted path's
quotes, clean the fetched text with `HTML_CLEANER`, scan it with
`count_words`, and hand the result to `save_dangerous_words` (which is the
writer this branch uses — not `save_content`). -/
def main_html_branch (isDir : List Char → Bool) (ts : List Char)
    (content : List Nat) (path : List Char) : List Char × List Nat :=
  save_dangerous_words isDir ts (count_words (htmlCleanerSub content))
    (stripQuotes path)

/-- A network returning a JPEG content type over a body that is not valid
UTF-8 (witness input for `check_url_classification`). -/
def netJpeg : String → Except String Response :=
  fun _ => .ok ⟨"image/jpeg", [255]⟩

/-- A network erroring on one URL and serving a non-UTF-8 body on the others
(witness input for `load_url_error_behaviour`). -/
def netMixed : String → Except String Response :=
  fun u => if u = "a" then .error "boom" else .ok ⟨"text/html", [255]⟩

/-! ### The tokenizer: rewrite equations -/

theorem tokensAux_word_run (w rest acc : List Nat)
    (hw : ∀ c ∈ w, isWordChar c = true) :
    tokensAux (w ++ rest) acc = tokensAux rest (w.reverse ++ acc) := by
  induction w generalizing acc with
  | nil => simp
  | cons a as ih =>
    have ha : isWordChar a = true := hw a (List.mem_cons_self _ _)
    have step : tokensAux ((a :: as) ++ rest) acc = tokensAux (as ++ rest) (a :: acc) := by
      show tokensAux (a :: (as ++ rest)) acc = tokensAux (as ++ rest) (a :: acc)
      simp [tokensAux, ha]
    rw [step, ih (a :: acc) (fun c hc => hw c (List.mem_cons_of_mem _ hc))]
    simp [List.append_assoc]

theorem findallWords_nil : findallWords [] = [] := rfl

theorem findallWords_cons_word (c : Nat) (cs : List Nat)
    (hc : isWordChar c = true) :
    findallWords (c :: cs) =
      (c :: cs.takeWhile isWordChar) ::
        findallWords (cs.dropWhile isWordChar) := by
  unfold findallWords
  have h1 : tokensAux (c :: cs) [] = tokensAux cs [c] := by
    simp [tokensAux, hc]
  rw [h1]
  conv_lhs => rw [← List.takeWhile_append_dropWhile isWordChar cs]
  rw [tokensAux_word_run _ _ _ (fun x hx => List.mem_takeWhile_imp hx)]
  cases hd : cs.dropWhile isWordChar with
  | nil => simp [tokensAux, List.reverse_append]
  | cons d ds =>
    have hdneg : isWordChar d = false := by
      have h2 := List.head?_dropWhile_not isWordChar cs
      rw [hd] at h2
      exact h2
    simp [tokensAux, hdneg, List.reverse_append]

theorem findallWords_cons_nonword (c : Nat) (cs : List Nat)
    (hc : isWordChar c = false) :
    findallWords (c :: cs) = findallWords cs := by
  simp [findallWords, tokensAux, hc]

/-! ### The tokenizer: tokens are exactly the maximal word-character runs -/

theorem mem_findallWords_sound :
    ∀ n (t : List Nat), t.length ≤ n → ∀ tok ∈ findallWords t,
      ∃ a b, t = a ++ tok ++ b ∧ tok ≠ [] ∧
        (∀ c ∈ tok, isWordChar c = true) ∧
        (∀ c, a.getLast? = some c → isWordChar c = false) ∧
        (∀ c, b.head? = some c → isWordChar c = false) := by
  intro n
  induction n with
  | zero =>
    intro t hlen tok hmem
    have ht : t = [] := List.length_eq_zero.mp (Nat.le_zero.mp hlen)
    subst ht
    simp [findallWords, tokensAux] at hmem
  | succ n ih =>
    intro t hlen tok hmem
    match t with
    | [] => simp [findallWords, tokensAux] at hmem
    | c :: cs =>
      have hcs : cs.length ≤ n := Nat.le_of_succ_le_succ hlen
      by_cases hc : isWordChar c = true
      · rw [findallWords_cons_word c cs hc] at hmem
        rcases List.mem_cons.mp hmem with h | h
        · subst h
          refine ⟨[], cs.dropWhile isWordChar, ?_, by simp, ?_, by simp, ?_⟩
          · simp [List.takeWhile_append_dropWhile]
          · intro x hx
            rcases List.mem_cons.mp hx with hx | hx
            · subst hx; exact hc
            · exact List.mem_takeWhile_imp hx
          · intro x hx
            have h2 := List.head?_dropWhile_not isWordChar cs
            rw [hx] at h2
            exact h2
        · have hsub : (cs.dropWhile isWordChar).length ≤ n :=
            le_trans ((List.dropWhile_sublist _).length_le) hcs
          obtain ⟨a, b, heq, hne, hword, hlast, hhead⟩ :=
            ih (cs.dropWhile isWordChar) hsub tok h
          match a with
          | [] =>
            exfalso
            match tok, hne with
            | d :: tok2, _ =>
              have hhd : (cs.dropWhile isWordChar).head? = some d := by
                rw [heq]; rfl
              have h2 := List.head?_dropWhile_not isWordChar cs
              rw [hhd] at h2
              exact absurd (hword d (List.mem_cons_self _ _)) (by simp [h2])
          | a0 :: a1 =>
            refine ⟨(c :: cs.takeWhile isWordChar) ++ (a0 :: a1), b, ?_, hne,
              hword, ?_, hhead⟩
            · have h3 := List.takeWhile_append_dropWhile isWordChar cs
              calc c :: cs
                  = c :: (cs.takeWhile isWordChar ++ cs.dropWhile isWordChar) := by
                    rw [h3]
                _ = ((c :: cs.takeWhile isWordChar) ++ (a0 :: a1)) ++ tok ++ b := by
                    rw [heq]
                    simp [List.append_assoc]
            · intro x hx
              rw [List.getLast?_append_of_ne_nil _ (by simp)] at hx
              exact hlast x hx
      · have hc2 : isWordChar c = false := by simpa using hc
        rw [findallWords_cons_nonword c cs hc2] at hmem
        obtain ⟨a, b, heq, hne, hword, hlast, hhead⟩ := ih cs hcs tok hmem
        refine ⟨c :: a, b, by rw [heq]; rfl, hne, hword, ?_, hhead⟩
        intro x hx
        match a with
        | [] =>
          simp at hx
          subst hx
          exact hc2
        | a0 :: a1 =>
          rw [show (c :: a0 :: a1 : List Nat) = [c] ++ (a0 :: a1) from rfl,
            List.getLast?_append_of_ne_nil _ (by simp)] at hx
          exact hlast x hx

theorem mem_findallWords_complete :
    ∀ n (t tok a b : List Nat), t.length ≤ n →
      t = a ++ tok ++ b → tok ≠ [] →
      (∀ c ∈ tok, isWordChar c = true) →
      (∀ c, a.getLast? = some c → isWordChar c = false) →
      (∀ c, b.head? = some c → isWordChar c = false) →
      tok ∈ findallWords t := by
  intro n
  induction n with
  | zero =>
    intro t tok a b hlen heq hne hword hlast hhead
    have ht : t = [] := List.length_eq_zero.mp (Nat.le_zero.mp hlen)
    subst ht
    match tok, hne with
    | d :: tok2, _ => simp at heq
  | succ n ih =>
    intro t tok a b hlen heq hne hword hlast hhead
    match t with
    | [] =>
      match tok, hne with
      | d :: tok2, _ => simp at heq
    | c :: cs =>
      have hcs : cs.length ≤ n := Nat.le_of_succ_le_succ hlen
      match a with
      | [] =>
        match tok, hne with
        | d :: tok2, _ =>
          simp only [List.nil_append, List.cons_append, List.cons.injEq] at heq
          obtain ⟨hdc, hcs2⟩ := heq
          subst hdc
          have hc : isWordChar c = true := hword c (List.mem_cons_self _ _)
          rw [findallWords_cons_word c cs hc]
          have htw : cs.takeWhile isWordChar = tok2 := by
            rw [hcs2,
              List.takeWhile_append_of_pos
                (fun x hx => hword x (List.mem_cons_of_mem _ hx))]
            match b with
            | [] => simp
            | b0 :: b1 =>
              rw [List.takeWhile_cons_of_neg (by simp [hhead b0 rfl])]
              simp
          rw [htw]
          exact List.mem_cons_self _ _
      | a0 :: a1 =>
        simp only [List.cons_append, List.cons.injEq, List.append_assoc] at heq
        obtain ⟨ha0, hcs2⟩ := heq
        subst ha0
        by_cases hc : isWordChar c = true
        · have ha1 : a1 ≠ [] := by
            intro h
            subst h
            exact absurd hc (by simp [hlast c rfl])
          have hlast1 : ∀ x, a1.getLast? = some x → isWordChar x = false := by
            intro x hx
            refine hlast x ?_
            rw [show (c :: a1 : List Nat) = [c] ++ a1 from rfl,
              List.getLast?_append_of_ne_nil _ ha1]
            exact hx
          obtain ⟨x, hx⟩ : ∃ x, a1.getLast? = some x := by
            match a1, ha1 with
            | y :: a2, _ => exact ⟨_, List.getLast?_eq_getLast _ (by simp)⟩
          have hpx : isWordChar x = false := hlast1 x hx
          have hxmem : x ∈ a1 := List.mem_of_mem_getLast? hx
          have hdne : a1.dropWhile isWordChar ≠ [] := by
            intro h
            have := List.dropWhile_eq_nil_iff.mp h x hxmem
            simp [hpx] at this
          rw [findallWords_cons_word c cs hc]
          refine List.mem_cons_of_mem _ ?_
          have hempty : (a1.dropWhile isWordChar).isEmpty = false := by
            cases h : a1.dropWhile isWordChar with
            | nil => exact absurd h hdne
            | cons _ _ => rfl
          have hdrop : cs.dropWhile isWordChar =
              a1.dropWhile isWordChar ++ (tok ++ b) := by
            rw [hcs2]
            simp [List.dropWhile_append, hempty]
          obtain ⟨pre, hpre⟩ := List.dropWhile_suffix (l := a1) isWordChar
          refine ih (cs.dropWhile isWordChar) tok (a1.dropWhile isWordChar) b
            (le_trans (List.dropWhile_sublist _).length_le hcs)
            (by rw [hdrop]; simp [List.append_assoc]) hne hword ?_ hhead
          intro y hy
          refine hlast1 y ?_
          rw [← hpre, List.getLast?_append_of_ne_nil _ hdne]
          exact hy
        · have hc2 : isWordChar c = false := by simpa using hc
          rw [findallWords_cons_nonword c cs hc2]
          refine ih cs tok a1 b hcs (by rw [hcs2]; simp [List.append_assoc])
            hne hword ?_ hhead
          intro x hx
          refine hlast x ?_
          have ha1 : a1 ≠ [] := by
            intro h
            subst h
            simp at hx
          rw [show (c :: a1 : List Nat) = [c] ++ a1 from rfl,
            List.getLast?_append_of_ne_nil _ ha1]
          exact hx

theorem mem_count_words_iff (t w : List Nat) :
    w ∈ count_words t ↔
      (∃ tok ∈ findallWords t, lowerText tok = w) ∧ w ∈ DANGEROUS_WORDS := by
  simp [count_words, List.mem_filter, List.mem_map]

/-- C2: for every (ASCII) input text, `count_words` returns exactly the set
of denylist words that occur in the text as whole words (case-insensitive),
in lowercase form; a denylist word occurring only as a substring of a longer
word token (e.g. "bomb" inside "bombastic") is not in the result. -/
theorem count_words_exactly_whole_words (t w : List Nat)
    (_hascii : ∀ c ∈ t, c < 128) :
    w ∈ count_words t ↔ w ∈ DANGEROUS_WORDS ∧ OccursAsWholeWord w t := by
  rw [mem_count_words_iff]
  constructor
  · rintro ⟨⟨tok, htok, hlow⟩, hD⟩
    refine ⟨hD, ?_⟩
    obtain ⟨a, b, heq, hne, hword, hlast, hhead⟩ :=
      mem_findallWords_sound t.length t le_rfl tok htok
    exact ⟨a, tok, b, heq, hne, hword, hlow, hlast, hhead⟩
  · rintro ⟨hD, a, m, b, heq, hne, hword, hlow, hlast, hhead⟩
    refine ⟨⟨m, ?_, hlow⟩, hD⟩
    exact mem_findallWords_complete t.length t m a b le_rfl heq hne hword
      hlast hhead

theorem count_words_exactly_whole_words_witness :
    (∀ c ∈ strCodes "A bomb, bombastic.", c < 128) ∧
      (strCodes "bomb" ∈ count_words (strCodes "A bomb, bombastic.") ↔
        strCodes "bomb" ∈ DANGEROUS_WORDS ∧
          OccursAsWholeWord (strCodes "bomb") (strCodes "A bomb, bombastic.")) :=
  ⟨by decide, count_words_exactly_whole_words _ _ (by decide)⟩

/-- C8: applying the HTML cleaner substitution (`HTML_CLEANER.sub('', ·)`)
and then the scanner (`count_words`) to the input `"<p>kill</p>"` yields
exactly the set `{"kill"}`. -/
theorem html_cleaner_then_scan_kill :
    count_words (htmlCleanerSub (strCodes "<p>kill</p>")) =
      [strCodes "kill"] := by decide

/-! ### The fetcher -/

/-- C1: for every HTTP response, `check_url` classifies it as JPEG when the
`Content-Type` header equals `image/jpeg` regardless of body content;
otherwise, if the body decodes as UTF-8 to a non-empty string, it classifies
it as HTML; otherwise (body decoding to the empty string) it returns
`(False, None)`. -/
theorem check_url_classification (net : String → Except String Response)
    (url : String) (r : Response)
    (hnet : net (check_url_request_url url) = .ok r) :
    (r.contentType = "image/jpeg" →
      check_url net url = .ok (true, some "image/jpeg")) ∧
    (r.contentType ≠ "image/jpeg" → ∀ s, utf8Decode r.body = some s →
      s ≠ [] → check_url net url = .ok (true, some "text/html")) ∧
    (r.contentType ≠ "image/jpeg" → utf8Decode r.body = some [] →
      check_url net url = .ok (false, none)) := by
  unfold check_url
  rw [hnet]
  refine ⟨?_, ?_, ?_⟩
  · intro h
    simp [h]
  · intro h s hs hne
    simp [h, hs, hne]
  · intro h hs
    simp [h, hs]

theorem check_url_classification_witness :
    (netJpeg (check_url_request_url "example.com") =
        .ok ⟨"image/jpeg", [255]⟩) ∧
      check_url netJpeg "example.com" = .ok (true, some "image/jpeg") :=
  ⟨rfl,
    (check_url_classification netJpeg "example.com" ⟨"image/jpeg", [255]⟩
      rfl).1 rfl⟩

/-- C3 counterexample: on a body that is not valid UTF-8 loaded with
`binary=False`, `load_url` surfaces an uncaught `UnicodeDecodeError` — which
is not a `URLFetcherError` — because its `except` clause only catches
`URLError` and `HTTPError`. -/
theorem load_url_decode_error_unwrapped :
    load_url (fun _ => .ok ⟨"text/html", [255]⟩) "http://example.com" false =
        .error .unicodeDecodeError ∧
      PyExc.unicodeDecodeError.isFetcherError = false :=
  ⟨rfl, rfl⟩

/-- C3 amended: a network failure during `load_url` raises `URLFetcherError`
carrying the underlying cause message; but a body that is not valid UTF-8,
loaded with `binary=False`, raises `UnicodeDecodeError`, which escapes
`load_url` unwrapped. -/
theorem load_url_error_behaviour (net : String → Except String Response)
    (url e : String) (r : Response) :
    (net (load_url_request_url url) = .error e →
      ∀ b, load_url net url b =
        .error (.urlFetcherError ("Failed to load URL: " ++ e))) ∧
    (net (load_url_request_url url) = .ok r → utf8Decode r.body = none →
      load_url net url false = .error .unicodeDecodeError) := by
  constructor
  · intro h b
    unfold load_url
    rw [h]
  · intro h hd
    unfold load_url
    rw [h]
    simp [hd]

theorem load_url_error_behaviour_witness :
    (netMixed (load_url_request_url "a") = .error "boom" ∧
      load_url netMixed "a" false =
        .error (.urlFetcherError "Failed to load URL: boom")) ∧
    (netMixed (load_url_request_url "b") = .ok ⟨"text/html", [255]⟩ ∧
      utf8Decode [255] = none ∧
      load_url netMixed "b" false = .error .unicodeDecodeError) :=
  ⟨⟨rfl,
    (load_url_error_behaviour netMixed "a" "boom" ⟨"text/html", [255]⟩).1
      rfl false⟩,
   ⟨rfl, rfl,
    (load_url_error_behaviour netMixed "b" "boom" ⟨"text/html", [255]⟩).2
      rfl rfl⟩⟩

/-- C5 counterexample: for the scheme-less URL `example.com`, `check_url`
requests the defaulted `http://example.com`, but `main` hands `load_url` the
original string unchanged and `load_url` requests exactly its argument, so no
`http://` default is applied when downloading. -/
theorem scheme_default_only_in_check_url :
    check_url_request_url "example.com" = "http://example.com" ∧
      load_url_request_url (main_load_url_arg "example.com") = "example.com" ∧
      "http://".data.isPrefixOf "example.com".data = false :=
  ⟨rfl, rfl, by decide⟩

/-- C5 amended: the `http://` default is applied by `check_url` when building
its GET request, but `main` passes the original URL to `load_url`, which
requests it unchanged — a scheme-less URL is therefore only defaulted during
classification, not when downloading. -/
theorem scheme_default_check_only (url : String)
    (h : ("http://".data.isPrefixOf url.data ||
      "https://".data.isPrefixOf url.data) = false) :
    check_url_request_url url = "http://" ++ url ∧
      load_url_request_url (main_load_url_arg url) = url := by
  refine ⟨?_, rfl⟩
  unfold check_url_request_url defaultScheme
  rw [h]
  rfl

theorem scheme_default_check_only_witness :
    (("http://".data.isPrefixOf "example.com".data ||
        "https://".data.isPrefixOf "example.com".data) = false) ∧
      (check_url_request_url "example.com" = "http://" ++ "example.com" ∧
        load_url_request_url (main_load_url_arg "example.com") =
          "example.com") :=
  ⟨by decide, scheme_default_check_only "example.com" (by decide)⟩

/-! ### The writers and the timestamp cache -/

/-- C6: for every scan whose denylist intersection is empty (and whatever the
filesystem state, timestamp and target path), `save_dangerous_words` writes a
file whose entire content is the literal text "No dangerous words found". -/
theorem save_dangerous_words_empty_content (isDir : List Char → Bool)
    (ts path : List Char) :
    (save_dangerous_words isDir ts [] path).2 =
      strCodes "No dangerous words found" := rfl

theorem generate_timestamp_runAux_some (t : List Char)
    (clocks : List (List Char)) :
    generate_timestamp_runAux (some t) clocks = clocks.map (fun _ => t) := by
  induction clocks with
  | nil => rfl
  | cons c cs ih =>
    simp [generate_timestamp_runAux, generate_timestamp_call, ih]

/-- C9: within a single process run, every call to the cached
`generate_timestamp` returns the same string as the first call, whatever
clock values the later calls observe. -/
theorem generate_timestamp_cached (c : List Char) (cs : List (List Char)) :
    generate_timestamp_run (c :: cs) = c :: cs.map (fun _ => c) := by
  simp [generate_timestamp_run, generate_timestamp_runAux,
    generate_timestamp_call, generate_timestamp_runAux_some]

/-- C4 counterexample: the pipeline's HTML branch writes through
`save_dangerous_words`, which performs no extension validation at all:
scanning `"<p>kill</p>"` and saving to the path `x.jpg` succeeds and writes
the scan text to `x.jpg`, instead of rejecting the text-mode write with an
InvalidExtension `URLFetcherError`. -/
theorem html_branch_accepts_jpg_path :
    main_html_branch (fun _ => false) "TS".data (strCodes "<p>kill</p>")
      "x.jpg".data = ("x.jpg".data, strCodes "kill") := by decide

/-- C4 amended: `save_content` rejects, with `URLFetcherError`, every
binary-mode write to a (non-directory) path whose extension is `.txt` and
every text-mode write to one whose extension is `.jpg`; the pipeline's HTML
branch, however, writes through `save_dangerous_words`, which never
validates extensions and keeps any path that has a suffix, `.jpg`
included. -/
theorem save_content_rejects_mismatched_ext (isDir : List Char → Bool)
    (ts : List Char) (content : Sum (List Nat) (List Nat)) (path : List Char)
    (hnd : isDir (stripQuotes path) = false) :
    (path_suffix (stripQuotes path) = ".txt".data →
      save_content isDir ts content path true =
        .error (.urlFetcherError "Invalid binary extension")) ∧
    (path_suffix (stripQuotes path) = ".jpg".data →
      save_content isDir ts content path false =
        .error (.urlFetcherError "Invalid text extension")) ∧
    (∀ words, path_suffix (stripQuotes path) ≠ [] →
      (save_dangerous_words isDir ts words path).1 = stripQuotes path) := by
  refine ⟨?_, ?_, ?_⟩
  · intro h
    simp [save_content, hnd, h]
    decide
  · intro h
    simp [save_content, hnd, h]
    decide
  · intro words h
    simp [save_dangerous_words, hnd, h]

theorem save_content_rejects_mismatched_ext_witness :
    ((fun _ : List Char => false) (stripQuotes "x.txt".data) = false ∧
      path_suffix (stripQuotes "x.txt".data) = ".txt".data ∧
      save_content (fun _ => false) "TS".data (.inr (strCodes "t"))
        "x.txt".data true =
        .error (.urlFetcherError "Invalid binary extension")) ∧
    (path_suffix (stripQuotes "x.jpg".data) = ".jpg".data ∧
      save_content (fun _ => false) "TS".data (.inr (strCodes "t"))
        "x.jpg".data false =
        .error (.urlFetcherError "Invalid text extension") ∧
      (save_dangerous_words (fun _ => false) "TS".data [strCodes "kill"]
        "x.jpg".data).1 = stripQuotes "x.jpg".data) :=
  ⟨⟨rfl, by decide,
    (save_content_rejects_mismatched_ext (fun _ => false) "TS".data
      (.inr (strCodes "t")) "x.txt".data rfl).1 (by decide)⟩,
   ⟨by decide,
    (save_content_rejects_mismatched_ext (fun _ => false) "TS".data
      (.inr (strCodes "t")) "x.jpg".data rfl).2.1 (by decide),
    (save_content_rejects_mismatched_ext (fun _ => false) "TS".data
      (.inr (strCodes "t")) "x.jpg".data rfl).2.2 [strCodes "kill"]
      (by decide)⟩⟩

theorem takeWhile_eq_of_all_of_head (p : Char → Bool) (l r : List Char)
    (hl : ∀ c ∈ l, p c = true) (hr : ∀ c, r.head? = some c → p c = false) :
    (l ++ r).takeWhile p = l := by
  rw [List.takeWhile_append_of_pos hl]
  cases r with
  | nil => simp
  | cons c cs =>
    rw [List.takeWhile_cons_of_neg (by simp [hr c rfl])]
    simp

theorem lastComponent_append (dir fname : List Char) (h : '/' ∉ fname) :
    lastComponent (dir ++ '/' :: fname) = fname := by
  unfold lastComponent
  have h1 : (dir ++ '/' :: fname).reverse =
      fname.reverse ++ '/' :: dir.reverse := by
    simp
  rw [h1, takeWhile_eq_of_all_of_head _ _ _ ?_ ?_]
  · simp
  · intro c hc
    simp only [List.mem_reverse] at hc
    simp only [ne_eq, decide_eq_true_eq]
    exact fun heq => h (heq ▸ hc)
  · intro c hc
    simp only [List.head?_cons, Option.some.injEq] at hc
    subst hc
    simp

theorem path_suffix_dir_synth (dir front ext : List Char)
    (hfront : front ≠ []) (hfrontc : ∀ c ∈ front, c ≠ '.' ∧ c ≠ '/')
    (hext : ext ≠ []) (hextc : ∀ c ∈ ext, c ≠ '.' ∧ c ≠ '/') :
    path_suffix (dir ++ '/' :: (front ++ '.' :: ext)) = '.' :: ext := by
  have hnos : '/' ∉ front ++ '.' :: ext := by
    intro hmem
    rcases List.mem_append.mp hmem with h | h
    · exact (hfrontc _ h).2 rfl
    · rcases List.mem_cons.mp h with h | h
      · exact absurd h.symm (by decide)
      · exact (hextc _ h).2 rfl
  have hlast := lastComponent_append dir (front ++ '.' :: ext) hnos
  have hrev : (front ++ '.' :: ext).reverse =
      ext.reverse ++ '.' :: front.reverse := by
    simp
  have htw : (ext.reverse ++ '.' :: front.reverse).takeWhile (· ≠ '.') =
      ext.reverse := by
    refine takeWhile_eq_of_all_of_head _ _ _ ?_ ?_
    · intro c hc
      simp only [List.mem_reverse] at hc
      simp only [ne_eq, decide_eq_true_eq]
      exact (hextc _ hc).1
    · intro c hc
      simp only [List.head?_cons, Option.some.injEq] at hc
      subst hc
      simp
  have h1 : 0 < ext.length := List.length_pos.mpr hext
  have h2 : 0 < front.length := List.length_pos.mpr hfront
  simp only [path_suffix, hlast, hrev, htw]
  rw [if_pos]
  · simp
  · simp only [List.length_reverse, List.length_append, List.length_cons,
      Bool.and_eq_true, decide_eq_true_eq]
    omega

/-- C7: whenever the writer `save_content` is given a path that is an
existing directory, it synthesizes a filename from the timestamp whose
extension matches the mode — `image_{ts}.jpg` in binary mode and
`content_{ts}.txt` in text mode — placed inside that directory, and the
write is accepted. (The hypothesis on `ts` records that a
`"%Y%m%d_%H%M%S"`-formatted timestamp contains no `.` and no `/`.) -/
theorem save_content_into_directory (isDir : List Char → Bool)
    (ts : List Char) (content : Sum (List Nat) (List Nat)) (path : List Char)
    (hdir : isDir (stripQuotes path) = true)
    (hts : ∀ c ∈ ts, c ≠ '.' ∧ c ≠ '/') :
    (save_content isDir ts content path true =
      .ok ⟨stripQuotes path ++ '/' :: ("image_".data ++ ts ++ ".jpg".data),
        true, content⟩) ∧
    (save_content isDir ts content path false =
      .ok ⟨stripQuotes path ++ '/' :: ("content_".data ++ ts ++ ".txt".data),
        false, content⟩) := by
  have hfrontc1 : ∀ c ∈ "image_".data ++ ts, c ≠ '.' ∧ c ≠ '/' := by
    intro c hc
    rcases List.mem_append.mp hc with h | h
    · exact (by decide : ∀ c ∈ "image_".data, c ≠ '.' ∧ c ≠ '/') c h
    · exact hts c h
  have hfrontc2 : ∀ c ∈ "content_".data ++ ts, c ≠ '.' ∧ c ≠ '/' := by
    intro c hc
    rcases List.mem_append.mp hc with h | h
    · exact (by decide : ∀ c ∈ "content_".data, c ≠ '.' ∧ c ≠ '/') c h
    · exact hts c h
  have hsuf1 : path_suffix
      (stripQuotes path ++ '/' :: ("image_".data ++ ts ++ ".jpg".data)) =
      ".jpg".data :=
    path_suffix_dir_synth (stripQuotes path) ("image_".data ++ ts) "jpg".data
      (by simp) hfrontc1 (by decide) (by decide)
  have hsuf2 : path_suffix
      (stripQuotes path ++ '/' :: ("content_".data ++ ts ++ ".txt".data)) =
      ".txt".data :=
    path_suffix_dir_synth (stripQuotes path) ("content_".data ++ ts)
      "txt".data (by simp) hfrontc2 (by decide) (by decide)
  constructor
  · simp only [save_content, hdir, if_true, generate_filename, if_pos rfl]
    simp only [List.append_assoc, List.cons_append, List.nil_append] at hsuf1 ⊢
    simp at hsuf1 ⊢
    simp [hsuf1, VALID_BINARY_EXT]
  · simp only [save_content, hdir, if_true, generate_filename]
    simp only [List.append_assoc, List.cons_append, List.nil_append] at hsuf2 ⊢
    simp at hsuf2 ⊢
    simp [hsuf2, VALID_TEXT_EXT]

theorem save_content_into_directory_witness :
    ((fun _ : List Char => true) (stripQuotes "d".data) = true) ∧
      (∀ c ∈ ("20240101_120000".data : List Char), c ≠ '.' ∧ c ≠ '/') ∧
      save_content (fun _ => true) "20240101_120000".data (.inl [1])
        "d".data true =
        .ok ⟨"d/image_20240101_120000.jpg".data, true, .inl [1]⟩ := by
  refine ⟨rfl, by decide, ?_⟩
  have h := (save_content_into_directory (fun _ => true)
    "20240101_120000".data (.inl [1]) "d".data rfl (by decide)).1
  rw [h]
  rfl

theorem lexLeB_cons_iff (x y : Nat) (xs ys : List Nat) :
    lexLeB (x :: xs) (y :: ys) = true ↔
      x < y ∨ (x = y ∧ lexLeB xs ys = true) := by
  by_cases h1 : x < y
  · simp [lexLeB, h1]
  · by_cases h2 : y < x
    · have hne : x ≠ y := by omega
      simp [lexLeB, h1, h2, hne]
    · have hxy : x = y := by omega
      subst hxy
      simp [lexLeB, lt_irrefl]

theorem lexLeB_total : ∀ a b : List Nat, lexLeB a b = true ∨ lexLeB b a = true := by
  intro a
  induction a with
  | nil => exact fun b => Or.inl rfl
  | cons x xs ih =>
    intro b
    cases b with
    | nil => exact Or.inr rfl
    | cons y ys =>
      rcases Nat.lt_trichotomy x y with h | h | h
      · exact Or.inl ((lexLeB_cons_iff ..).mpr (Or.inl h))
      · subst h
        rcases ih ys with h | h
        · exact Or.inl ((lexLeB_cons_iff ..).mpr (Or.inr ⟨rfl, h⟩))
        · exact Or.inr ((lexLeB_cons_iff ..).mpr (Or.inr ⟨rfl, h⟩))
      · exact Or.inr ((lexLeB_cons_iff ..).mpr (Or.inl h))

theorem lexLeB_trans : ∀ a b c : List Nat,
    lexLeB a b = true → lexLeB b c = true → lexLeB a c = true := by
  intro a
  induction a with
  | nil => intros; rfl
  | cons x xs ih =>
    intro b c hab hbc
    cases b with
    | nil => simp [lexLeB] at hab
    | cons y ys =>
      cases c with
      | nil => simp [lexLeB] at hbc
      | cons z zs =>
        rcases (lexLeB_cons_iff ..).mp hab with h1 | ⟨h1, h1r⟩ <;>
          rcases (lexLeB_cons_iff ..).mp hbc with h2 | ⟨h2, h2r⟩
        · exact (lexLeB_cons_iff ..).mpr (Or.inl (by omega))
        · exact (lexLeB_cons_iff ..).mpr (Or.inl (by omega))
        · exact (lexLeB_cons_iff ..).mpr (Or.inl (by omega))
        · exact (lexLeB_cons_iff ..).mpr
            (Or.inr ⟨by omega, ih ys zs h1r h2r⟩)

theorem lexLeB_antisymm : ∀ a b : List Nat,
    lexLeB a b = true → lexLeB b a = true → a = b := by
  intro a
  induction a with
  | nil =>
    intro b _ hba
    cases b with
    | nil => rfl
    | cons y ys => simp [lexLeB] at hba
  | cons x xs ih =>
    intro b hab hba
    cases b with
    | nil => simp [lexLeB] at hab
    | cons y ys =>
      rcases (lexLeB_cons_iff ..).mp hab with h1 | ⟨h1, h1r⟩ <;>
        rcases (lexLeB_cons_iff ..).mp hba with h2 | ⟨h2, h2r⟩ <;>
        try omega
      rw [h1, ih ys h1r h2r]

theorem sortWords_sorted (w : List (List Nat)) :
    List.Sorted (fun a b => lexLeB a b = true) (sortWords w) := by
  haveI : IsTotal (List Nat) (fun a b => lexLeB a b = true) := ⟨lexLeB_total⟩
  haveI : IsTrans (List Nat) (fun a b => lexLeB a b = true) :=
    ⟨fun a b c => lexLeB_trans a b c⟩
  exact List.sorted_insertionSort _ _

theorem sortWords_perm_eq (w w' : List (List Nat)) (h : w.Perm w') :
    sortWords w = sortWords w' := by
  haveI : IsAntisymm (List Nat) (fun a b => lexLeB a b = true) :=
    ⟨fun a b => lexLeB_antisymm a b⟩
  exact List.eq_of_perm_of_sorted
    ((List.perm_insertionSort _ _).trans
      (h.trans (List.perm_insertionSort _ _).symm))
    (sortWords_sorted w) (sortWords_sorted w')

/-- C10: for every non-empty scan result, `save_dangerous_words` writes the
matched words sorted in ascending lexicographic order, joined by newline
characters; the persisted content is invariant under any reordering of the
word collection, hence a deterministic function of the word set. -/
theorem save_dangerous_words_sorted_deterministic (isDir : List Char → Bool)
    (ts path : List Char) (w w' : List (List Nat))
    (hne : w ≠ []) (hperm : w.Perm w') :
    (save_dangerous_words isDir ts w path).2 =
        joinWithNewlines (sortWords w) ∧
      List.Sorted (fun a b => lexLeB a b = true) (sortWords w) ∧
      (sortWords w).Perm w ∧
      save_dangerous_words isDir ts w path =
        save_dangerous_words isDir ts w' path := by
  refine ⟨by simp [save_dangerous_words, hne], sortWords_sorted w,
    List.perm_insertionSort _ _, ?_⟩
  have hne' : w' ≠ [] := by
    intro h
    subst h
    exact hne hperm.eq_nil
  simp [save_dangerous_words, hne, hne', sortWords_perm_eq w w' hperm]

theorem save_dangerous_words_sorted_deterministic_witness :
    (([strCodes "kill", strCodes "bomb"] : List (List Nat)) ≠ [] ∧
      ([strCodes "kill", strCodes "bomb"] : List (List Nat)).Perm
        [strCodes "bomb", strCodes "kill"]) ∧
    ((save_dangerous_words (fun _ => false) "TS".data
        [strCodes "kill", strCodes "bomb"] "o".data).2 =
      joinWithNewlines (sortWords [strCodes "kill", strCodes "bomb"]) ∧
      List.Sorted (fun a b => lexLeB a b = true)
        (sortWords [strCodes "kill", strCodes "bomb"]) ∧
      (sortWords [strCodes "kill", strCodes "bomb"]).Perm
        [strCodes "kill", strCodes "bomb"] ∧
      save_dangerous_words (fun _ => false) "TS".data
          [strCodes "kill", strCodes "bomb"] "o".data =
        save_dangerous_words (fun _ => false) "TS".data
          [strCodes "bomb", strCodes "kill"] "o".data) :=
  ⟨⟨by decide, List.Perm.swap _ _ _⟩,
   save_dangerous_words_sorted_deterministic _ _ _ _ _ (by decide)
     (List.Perm.swap _ _ _)⟩

end URLDW
